import Mathlib

/-!
Verification development for the MessTrack meal-attendance tracker.

Shallow embedding conventions:
* ISO date strings (YYYY-MM-DD) are represented by natural numbers whose
  numeric order coincides with the lexicographic order of the well-formed,
  zero-padded date strings that the application uses as keys; in the
  statistics example dates are encoded as YYYYMMDD numbers, so the
  JavaScript prefix test date.startsWith(monthKey) becomes d / 100 = monthKey.
* JavaScript objects used as string-keyed maps are represented either as
  functions Nat → Option β (when only point lookup/update/delete matter:
  the undo manager) or as association lists (when the code iterates the
  entries: statistics and archiving).  Key insertion order of JS objects is
  not modelled.
* JavaScript truthiness is modelled explicitly where the source relies on
  it: a number is falsy exactly when it is 0, a string exactly when it is
  empty, an object/undefined via Option.
* Timestamps and random ids attached to recorded undo actions are dropped:
  they are written by recordAction but never read by undo/redo logic.
-/

/-- Meal selector: the two meals tracked per day. -/
inductive Meal
  | lunch
  | dinner
deriving DecidableEq, Repr

/-- One attendance record: the value stored under a date key,
the object shaped as braces lunch: bool, dinner: bool. -/
structure MealEntry where
  lunch : Bool
  dinner : Bool
deriving DecidableEq, Repr

/-- Field access record[mealType] of the source. -/
def MealEntry.get (r : MealEntry) : Meal → Bool
  | Meal.lunch => r.lunch
  | Meal.dinner => r.dinner

/-- Field assignment record[mealType] = b of the source. -/
def MealEntry.set (r : MealEntry) : Meal → Bool → MealEntry
  | Meal.lunch, b => { r with lunch := b }
  | Meal.dinner, b => { r with dinner := b }

/-- Test day.lunch || day.dinner used by the streak and notification code. -/
def anyMeal (r : MealEntry) : Bool := r.lunch || r.dinner

/-- Model of Number.prototype.toFixed(1) on the exact rational value:
round to the nearest tenth.  (Binary floating point artifacts are not
modelled; on the concrete values appearing in the claims the rational
and the double computation agree.) -/
def toFixed1 (q : ℚ) : ℚ := (round (q * 10) : ℤ) / 10

namespace StatisticsManager

/-- Loop of calculateCurrentStreak: walk the dates most recent first,
count while lunch || dinner holds, stop (break) at the first day with
both meals false. -/
def currentStreakGo (att : Nat → MealEntry) : List Nat → Nat
  | [] => 0
  | d :: rest => if anyMeal (att d) then currentStreakGo att rest + 1 else 0

/-- StatisticsManager.calculateCurrentStreak(dates, attendance):
sorts a copy of the date keys, reverses it, and counts the trailing run
of days with at least one meal attended. -/
def calculateCurrentStreak (dates : List Nat) (att : Nat → MealEntry) : Nat :=
  currentStreakGo att ((List.insertionSort (· ≤ ·) dates).reverse)

/-- Loop of calculateLongestStreak: fold over the sorted dates keeping
the current run length and the maximum run length seen so far. -/
def longestStreakGo (att : Nat → MealEntry) : List Nat → Nat → Nat → Nat
  | [], maxS, _ => maxS
  | d :: rest, maxS, cur =>
    if anyMeal (att d) then longestStreakGo att rest (max maxS (cur + 1)) (cur + 1)
    else longestStreakGo att rest maxS 0

/-- StatisticsManager.calculateLongestStreak(dates, attendance). -/
def calculateLongestStreak (dates : List Nat) (att : Nat → MealEntry) : Nat :=
  longestStreakGo att (List.insertionSort (· ≤ ·) dates) 0 0

/-- Numeric fields of the stats object built by calculateMonthlyStats
(the chart/insight fields that no claim mentions are omitted). -/
structure MonthlyStats where
  totalDays : Nat
  lunchCount : Nat
  dinnerCount : Nat
  bothMealsCount : Nat
  onlyLunchCount : Nat
  onlyDinnerCount : Nat
  skippedBothCount : Nat
  totalMealsAttended : Nat
  totalPossibleMeals : Nat
  attendancePercentage : ℚ
  currentStreak : Nat
  longestStreak : Nat
deriving DecidableEq, Repr

/-- Lookup attendance[date]; dates passed to the statistics code are keys
of the map itself, so the default is never hit on them. -/
def lookupAtt (attendance : List (Nat × MealEntry)) (d : Nat) : MealEntry :=
  (attendance.lookup d).getD ⟨false, false⟩

/-- StatisticsManager.calculateMonthlyStats.  The month filter
date.startsWith(monthKey) is passed as the predicate inMonth; the forEach
tally over the filtered, sorted date keys is expressed with countP. -/
def calculateMonthlyStats (attendance : List (Nat × MealEntry))
    (inMonth : Nat → Bool) : MonthlyStats :=
  let dates := List.insertionSort (· ≤ ·)
    ((attendance.map Prod.fst).filter inMonth)
  let att := lookupAtt attendance
  let lunchCount := dates.countP (fun d => (att d).lunch)
  let dinnerCount := dates.countP (fun d => (att d).dinner)
  let totalDays := dates.length
  let totalMealsAttended := lunchCount + dinnerCount
  let totalPossibleMeals := totalDays * 2
  { totalDays := totalDays
    lunchCount := lunchCount
    dinnerCount := dinnerCount
    bothMealsCount := dates.countP (fun d => (att d).lunch && (att d).dinner)
    onlyLunchCount := dates.countP (fun d => (att d).lunch && !(att d).dinner)
    onlyDinnerCount := dates.countP (fun d => !(att d).lunch && (att d).dinner)
    skippedBothCount := dates.countP (fun d => !(att d).lunch && !(att d).dinner)
    totalMealsAttended := totalMealsAttended
    totalPossibleMeals := totalPossibleMeals
    attendancePercentage :=
      if 0 < totalPossibleMeals then
        toFixed1 ((totalMealsAttended : ℚ) / (totalPossibleMeals : ℚ) * 100)
      else 0
    currentStreak := calculateCurrentStreak dates att
    longestStreak := calculateLongestStreak dates att }

end StatisticsManager

/-! ## Undo/redo manager (UndoManager class) -/

/-- Monthly summary record written by archivePreviousMonth:
braces lunchCount, dinnerCount, totalDays, percentage. -/
structure MonthSummary where
  lunchCount : Nat
  dinnerCount : Nat
  totalDays : Nat
  percentage : ℚ
deriving DecidableEq, Repr

/-- The shared application document as the undo manager sees it:
the three maps it mutates (settings are never touched by undo/redo).
Maps are point functions; key insertion order is not modelled. -/
structure AppData where
  attendance : Nat → Option MealEntry
  notes : Nat → Option String
  summaries : Nat → Option MonthSummary

/-- Point update of a map-as-function (assignment or delete at one key). -/
def setKey {β : Type} (m : Nat → Option β) (k : Nat) (v : Option β) :
    Nat → Option β :=
  fun x => if x = k then v else m x

/-- One entry of a bulk_edit action's data.changes array. -/
structure BulkChange where
  date : Nat
  oldValue : Option MealEntry
  newValue : MealEntry

/-- An undoable action's type tag and data payload, one constructor per
case of the executeUndo/executeRedo switch. -/
inductive ActionData
  | markAttendance (date : Nat) (meal : Meal)
  | unmarkAttendance (date : Nat) (meal : Meal)
  | addNote (date : Nat) (note : String)
  | editNote (date : Nat) (oldNote : Option String) (newNote : String)
  | deleteNote (date : Nat) (note : String)
  | bulkEdit (changes : List BulkChange)
  | deleteData (attendance : Nat → Option MealEntry)
      (notes : Nat → Option String) (summaries : Nat → Option MonthSummary)

/-- JavaScript truthiness of a note string, as tested by the guards
if (oldNote) and if (this.app.data.notes[date]): undefined/null and the
empty string are falsy. -/
def jsTruthyStr : Option String → Bool
  | none => false
  | some s => s ≠ ""

/-- UndoManager.executeUndo dispatch, acting on the shared data. -/
def executeUndo (a : ActionData) (d : AppData) : AppData :=
  match a with
  | ActionData.markAttendance date meal =>
    match d.attendance date with
    | some r =>
      { d with attendance := setKey d.attendance date (some (r.set meal false)) }
    | none => d
  | ActionData.unmarkAttendance date meal =>
    let r := (d.attendance date).getD ⟨false, false⟩
    { d with attendance := setKey d.attendance date (some (r.set meal true)) }
  | ActionData.addNote date _ =>
    if jsTruthyStr (d.notes date) then { d with notes := setKey d.notes date none }
    else d
  | ActionData.editNote date oldNote _ =>
    if jsTruthyStr oldNote then { d with notes := setKey d.notes date oldNote }
    else { d with notes := setKey d.notes date none }
  | ActionData.deleteNote date note =>
    { d with notes := setKey d.notes date (some note) }
  | ActionData.bulkEdit changes =>
    { d with attendance :=
        changes.foldl (fun m c => setKey m c.date c.oldValue) d.attendance }
  | ActionData.deleteData att nts sums =>
    { attendance := att, notes := nts, summaries := sums }

/-- UndoManager.executeRedo dispatch, acting on the shared data. -/
def executeRedo (a : ActionData) (d : AppData) : AppData :=
  match a with
  | ActionData.markAttendance date meal =>
    let r := (d.attendance date).getD ⟨false, false⟩
    { d with attendance := setKey d.attendance date (some (r.set meal true)) }
  | ActionData.unmarkAttendance date meal =>
    match d.attendance date with
    | some r =>
      { d with attendance := setKey d.attendance date (some (r.set meal false)) }
    | none => d
  | ActionData.addNote date note =>
    { d with notes := setKey d.notes date (some note) }
  | ActionData.editNote date _ newNote =>
    { d with notes := setKey d.notes date (some newNote) }
  | ActionData.deleteNote date _ =>
    if jsTruthyStr (d.notes date) then { d with notes := setKey d.notes date none }
    else d
  | ActionData.bulkEdit changes =>
    { d with attendance :=
        changes.foldl (fun m c => setKey m c.date (some c.newValue)) d.attendance }
  | ActionData.deleteData _ _ _ =>
    { attendance := fun _ => none, notes := fun _ => none,
      summaries := fun _ => none }

/-- The UndoManager's own mutable fields relevant to the claims. -/
structure UndoMgr where
  history : List ActionData
  currentIndex : Int

/-- UndoManager.maxHistorySize: keep last 50 actions. -/
def maxHistorySize : Nat := 50

/-- Fresh manager as built by the constructor (empty saved history). -/
def initMgr : UndoMgr := { history := [], currentIndex := -1 }

/-- Combined manager plus shared document, the state undo/redo act on. -/
structure SysState where
  mgr : UndoMgr
  data : AppData

/-- UndoManager.canUndo(). -/
def canUndo (m : UndoMgr) : Bool := decide (0 ≤ m.currentIndex)

/-- UndoManager.canRedo(). -/
def canRedo (m : UndoMgr) : Bool :=
  decide (m.currentIndex < (m.history.length : Int) - 1)

/-- UndoManager.recordAction: slice off entries after the cursor, push the
new action, then either evict the oldest entry (history past
maxHistorySize) or advance the cursor.  The timestamp/id metadata added to
the pushed entry is never read back and is dropped here. -/
def recordAction (a : ActionData) (m : UndoMgr) : UndoMgr :=
  let h := m.history.take (m.currentIndex + 1).toNat ++ [a]
  if maxHistorySize < h.length then { history := h.drop 1, currentIndex := m.currentIndex }
  else { history := h, currentIndex := m.currentIndex + 1 }

/-- recordAction lifted to the combined state (it never touches data). -/
def recordStep (a : ActionData) (s : SysState) : SysState :=
  { s with mgr := recordAction a s.mgr }

/-- UndoManager.undo: if possible, take the action at the cursor, move the
cursor back, execute the inverse operation.  The boolean result and the
toast are dropped. -/
def undoStep (s : SysState) : SysState :=
  if canUndo s.mgr then
    { mgr := { history := s.mgr.history, currentIndex := s.mgr.currentIndex - 1 }
      data :=
        match s.mgr.history[s.mgr.currentIndex.toNat]? with
        | some a => executeUndo a s.data
        | none => s.data }
  else s

/-- UndoManager.redo: if possible, advance the cursor and re-execute the
action now under it. -/
def redoStep (s : SysState) : SysState :=
  if canRedo s.mgr then
    { mgr := { history := s.mgr.history, currentIndex := s.mgr.currentIndex + 1 }
      data :=
        match s.mgr.history[(s.mgr.currentIndex + 1).toNat]? with
        | some a => executeRedo a s.data
        | none => s.data }
  else s

/-- UndoManager.clearHistory. -/
def clearStep (s : SysState) : SysState :=
  { s with mgr := initMgr }

/-- Record a list of actions in order. -/
def recordMany (acts : List ActionData) (s : SysState) : SysState :=
  acts.foldl (fun t a => recordStep a t) s

/-- Iterate undo K times. -/
def undoN : Nat → SysState → SysState
  | 0, s => s
  | k + 1, s => undoN k (undoStep s)

/-- Iterate redo K times. -/
def redoN : Nat → SysState → SysState
  | 0, s => s
  | k + 1, s => redoN k (redoStep s)

/-- JavaScript expression x || dflt on a number: 0 is falsy. -/
def jsNumOr (x dflt : Int) : Int := if x = 0 then dflt else x

/-- UndoManager.loadHistory on a successfully parsed saved object:
history := data.history || [], currentIndex := data.currentIndex || -1. -/
def loadHistory (hist : List ActionData) (idx : Int) : UndoMgr :=
  { history := hist, currentIndex := jsNumOr idx (-1) }

/-! ## Streak lemmas -/

namespace StatisticsManager

theorem currentStreakGo_append (att : Nat → MealEntry) (xs ys : List Nat)
    (h : ∀ d ∈ xs, anyMeal (att d) = true) :
    currentStreakGo att (xs ++ ys) = xs.length + currentStreakGo att ys := by
  induction xs with
  | nil => simp
  | cons d rest ih =>
    have hd : anyMeal (att d) = true := h d (List.mem_cons_self d rest)
    have hrest : ∀ x ∈ rest, anyMeal (att x) = true :=
      fun x hx => h x (List.mem_cons_of_mem d hx)
    simp [currentStreakGo, hd, ih hrest]
    omega

theorem currentStreakGo_skip (att : Nat → MealEntry) (d : Nat) (ys : List Nat)
    (h : anyMeal (att d) = false) :
    currentStreakGo att (d :: ys) = 0 := by
  simp [currentStreakGo, h]

/-- The trailing attended block of a list equals its takeWhile length. -/
theorem currentStreakGo_eq_takeWhile (att : Nat → MealEntry) (l : List Nat) :
    currentStreakGo att l = (l.takeWhile (fun d => anyMeal (att d))).length := by
  induction l with
  | nil => rfl
  | cons d rest ih =>
    by_cases hd : anyMeal (att d) = true
    · simp [currentStreakGo, hd, List.takeWhile_cons, ih]
    · simp [currentStreakGo, List.takeWhile_cons,
        Bool.eq_false_iff.mpr hd, eq_false_of_ne_true hd]

end StatisticsManager

/-- The list of calendar dates today+1-k, ..., today (a run of k consecutive
dates ending today), as the claims describe it. -/
def consecutiveRunTo (today k : Nat) : List Nat :=
  (List.range k).map (fun i => today + 1 - k + i)

/-- Modelled from the claim's words: k is the length of the maximal run of
consecutive calendar dates ending today that are all present in the date
set and all have at least one meal attended. -/
def SpecMaxRunEndingToday (dates : List Nat) (att : Nat → MealEntry)
    (today k : Nat) : Prop :=
  (∀ i < k, (today - i) ∈ dates ∧ anyMeal (att (today - i)) = true) ∧
  (k = today + 1 ∨ (today - k) ∉ dates ∨ anyMeal (att (today - k)) = false)

instance (dates : List Nat) (att : Nat → MealEntry) (today k : Nat) :
    Decidable (SpecMaxRunEndingToday dates att today k) := by
  unfold SpecMaxRunEndingToday; infer_instance

/-- C3, counterexample.  All of 1, 3, 4 attended with today = 4: the maximal
run of consecutive attended calendar dates ending today is 3, 4 (length 2:
date 2 is absent), but the code counts 3 — a calendar gap between recorded
dates does not break the computed streak. -/
theorem calculateCurrentStreak_gap_cex :
    SpecMaxRunEndingToday [1, 3, 4] (fun _ => ⟨true, false⟩) 4 2 ∧
    StatisticsManager.calculateCurrentStreak [1, 3, 4] (fun _ => ⟨true, false⟩) = 3 ∧
    (3 : Nat) ≠ 2 := by
  refine ⟨by decide, by decide, by decide⟩

/-- C3, amended.  If the date-sorted attendance keys end in a block of
consecutive calendar dates ending today that all have at least one meal
attended, and the key immediately before that block (if any) is a fully
skipped day, then calculateCurrentStreak returns the block's length.
(The counterexample above shows the boundary must be a recorded skipped
day: a mere calendar gap does not stop the count.) -/
theorem calculateCurrentStreak_trailing_run
    (att : Nat → MealEntry) (pre run : List Nat) (today : Nat)
    (hsorted : (pre ++ run).Sorted (· ≤ ·))
    (hrun : run = consecutiveRunTo today run.length)
    (hatt : ∀ d ∈ run, anyMeal (att d) = true)
    (hpre : pre = [] ∨ ∃ dl, pre.getLast? = some dl ∧ anyMeal (att dl) = false) :
    StatisticsManager.calculateCurrentStreak (pre ++ run) att = run.length := by
  unfold StatisticsManager.calculateCurrentStreak
  rw [hsorted.insertionSort_eq, List.reverse_append]
  rw [StatisticsManager.currentStreakGo_append att run.reverse pre.reverse
    (fun d hd => hatt d (List.mem_reverse.mp hd))]
  have hpre0 : StatisticsManager.currentStreakGo att pre.reverse = 0 := by
    rcases hpre with h | ⟨dl, hlast, hskip⟩
    · simp [h, StatisticsManager.currentStreakGo]
    · have hhead : pre.reverse.head? = some dl := by
        rw [List.head?_reverse]; exact hlast
      cases hrev : pre.reverse with
      | nil => simp [hrev] at hhead
      | cons x xs =>
        rw [hrev] at hhead
        simp only [List.head?_cons, Option.some.injEq] at hhead
        subst hhead
        exact StatisticsManager.currentStreakGo_skip att x xs hskip
  rw [hpre0, List.length_reverse, Nat.add_zero]

/-- Witness for the amended C3 theorem: map with keys 1 (fully skipped),
3, 4 (attended, consecutive, ending today = 4): streak is 2. -/
theorem calculateCurrentStreak_trailing_run_witness :
    (([1] ++ [3, 4] : List Nat).Sorted (· ≤ ·) ∧
      ([3, 4] : List Nat) = consecutiveRunTo 4 2 ∧
      (∀ d ∈ ([3, 4] : List Nat),
        anyMeal ((fun d => if d = 1 then (⟨false, false⟩ : MealEntry)
          else ⟨true, true⟩) d) = true) ∧
      (([1] : List Nat) = [] ∨ ∃ dl, ([1] : List Nat).getLast? = some dl ∧
        anyMeal ((fun d => if d = 1 then (⟨false, false⟩ : MealEntry)
          else ⟨true, true⟩) dl) = false)) ∧
    StatisticsManager.calculateCurrentStreak ([1] ++ [3, 4])
      (fun d => if d = 1 then ⟨false, false⟩ else ⟨true, true⟩) = 2 :=
  ⟨⟨by decide, by decide, by decide, Or.inr ⟨1, rfl, by decide⟩⟩,
    calculateCurrentStreak_trailing_run _ [1] [3, 4] 4 (by decide) (by decide)
      (by decide) (Or.inr ⟨1, rfl, by decide⟩)⟩

/-! ## Longest streak: maximum attended run -/

namespace StatisticsManager

/-- Run length ending at each successive position of the date list, given
that c attended dates immediately precede the list. -/
def runEnds (att : Nat → MealEntry) : Nat → List Nat → List Nat
  | _, [] => []
  | c, d :: rest =>
    (if anyMeal (att d) then c + 1 else 0) ::
      runEnds att (if anyMeal (att d) then c + 1 else 0) rest

/-- Maximum of a list of naturals. -/
def foldMax (l : List Nat) : Nat := l.foldr max 0

theorem foldMax_cons (x : Nat) (l : List Nat) :
    foldMax (x :: l) = max x (foldMax l) := rfl

theorem le_foldMax_of_mem {x : Nat} {l : List Nat} (h : x ∈ l) : x ≤ foldMax l := by
  induction l with
  | nil => cases h
  | cons y ys ih =>
    rcases List.mem_cons.mp h with rfl | hmem
    · exact le_max_left _ _
    · exact le_trans (ih hmem) (le_max_right _ _)

theorem foldMax_mem_or_zero (l : List Nat) :
    foldMax l = 0 ∨ foldMax l ∈ l := by
  induction l with
  | nil => exact Or.inl rfl
  | cons x xs ih =>
    rw [foldMax_cons]
    rcases Nat.le_total x (foldMax xs) with h | h
    · rw [max_eq_right h]
      rcases ih with h0 | hmem
      · exact Or.inl h0
      · exact Or.inr (List.mem_cons_of_mem x hmem)
    · rw [max_eq_left h]
      exact Or.inr (List.mem_cons_self x xs)

theorem longestStreakGo_eq_foldMax (att : Nat → MealEntry) (l : List Nat) :
    ∀ (m c : Nat), longestStreakGo att l m c = max m (foldMax (runEnds att c l)) := by
  induction l with
  | nil => intro m c; simp [longestStreakGo, runEnds, foldMax]
  | cons d rest ih =>
    intro m c
    by_cases hd : anyMeal (att d) = true
    · simp only [longestStreakGo, runEnds, hd, if_true, foldMax_cons, ih]
      rw [max_assoc]
    · simp only [longestStreakGo, runEnds, hd, if_false,
        Bool.not_eq_true _ ▸ hd, foldMax_cons, ih]
      simp [eq_false_of_ne_true hd, max_comm 0, max_assoc]

/-- The claim's notion of a run over the filtered date set: n consecutive
entries of the (sorted) date list all of which have some meal attended. -/
def IsAttendedRun (att : Nat → MealEntry) (l : List Nat) (n : Nat) : Prop :=
  ∃ l₁ l₂ l₃, l = l₁ ++ l₂ ++ l₃ ∧ l₂.length = n ∧
    ∀ d ∈ l₂, anyMeal (att d) = true

/-- Soundness: every run-end value names an actual attended run. -/
theorem runEnds_sound (att : Nat → MealEntry) :
    ∀ (l : List Nat) (c : Nat) (pre : List Nat),
      (∃ p sfx, pre = p ++ sfx ∧ sfx.length = c ∧
        ∀ d ∈ sfx, anyMeal (att d) = true) →
      ∀ e ∈ runEnds att c l, IsAttendedRun att (pre ++ l) e := by
  intro l
  induction l with
  | nil => intro c pre _ e he; cases he
  | cons d rest ih =>
    intro c pre hpre e he
    rcases hpre with ⟨p, sfx, hps, hlen, hall⟩
    by_cases hd : anyMeal (att d) = true
    · rw [runEnds, if_pos hd] at he
      rcases List.mem_cons.mp he with rfl | hmem
      · refine ⟨p, sfx ++ [d], rest, ?_, ?_, ?_⟩
        · rw [hps]; simp
        · simp [hlen]
        · intro x hx
          rcases List.mem_append.mp hx with hx | hx
          · exact hall x hx
          · rcases List.mem_singleton.mp hx with rfl; exact hd
      · have := ih (c + 1) (pre ++ [d])
          ⟨p, sfx ++ [d], by rw [hps]; simp, by simp [hlen],
            fun x hx => by
              rcases List.mem_append.mp hx with hx | hx
              · exact hall x hx
              · rcases List.mem_singleton.mp hx with rfl; exact hd⟩ e hmem
        simpa using this
    · rw [runEnds, if_neg hd] at he
      rcases List.mem_cons.mp he with rfl | hmem
      · exact ⟨[], [], pre ++ d :: rest, by simp, rfl, by simp⟩
      · have := ih 0 (pre ++ [d])
          ⟨pre ++ [d], [], by simp, rfl, by simp⟩ e hmem
        simpa using this

/-- Completeness step: an attended block starting at the head of the list
pushes the maximum run-end value at least to the carry plus its length. -/
theorem runEnds_complete_head (att : Nat → MealEntry) :
    ∀ (l₂ : List Nat), l₂ ≠ [] → (∀ d ∈ l₂, anyMeal (att d) = true) →
      ∀ (c : Nat) (l₃ : List Nat),
        c + l₂.length ≤ foldMax (runEnds att c (l₂ ++ l₃)) := by
  intro l₂
  induction l₂ with
  | nil => intro h; exact absurd rfl h
  | cons d rest ih =>
    intro _ hall c l₃
    have hd : anyMeal (att d) = true := hall d (List.mem_cons_self d rest)
    by_cases hne : rest = []
    · subst hne
      simp only [List.cons_append, List.nil_append, runEnds, hd, if_pos,
        foldMax_cons]
      simp
    · have hrest : ∀ d ∈ rest, anyMeal (att d) = true :=
        fun x hx => hall x (List.mem_cons_of_mem d hx)
      have hih := ih hne hrest (c + 1) l₃
      calc c + (d :: rest).length = (c + 1) + rest.length := by
            simp [List.length_cons]; omega
        _ ≤ foldMax (runEnds att (c + 1) (rest ++ l₃)) := hih
        _ ≤ foldMax (runEnds att c ((d :: rest) ++ l₃)) := by
            simp only [List.cons_append, runEnds, hd, if_pos, foldMax_cons]
            exact le_max_right _ _

/-- Completeness: every attended run is bounded by the maximum run-end. -/
theorem runEnds_complete (att : Nat → MealEntry) :
    ∀ (l₁ l₂ l₃ : List Nat), (∀ d ∈ l₂, anyMeal (att d) = true) →
      ∀ c, l₂.length ≤ foldMax (runEnds att c (l₁ ++ l₂ ++ l₃)) := by
  intro l₁
  induction l₁ with
  | nil =>
    intro l₂ l₃ hall c
    cases hl2 : l₂ with
    | nil => simp
    | cons x xs =>
      have := runEnds_complete_head att l₂ (by rw [hl2]; exact List.cons_ne_nil x xs)
        hall c l₃
      rw [← hl2]
      simp only [List.nil_append]
      omega
  | cons d l₁r ih =>
    intro l₂ l₃ hall c
    have := ih l₂ l₃ hall (if anyMeal (att d) then c + 1 else 0)
    simp only [List.cons_append, runEnds, foldMax_cons]
    exact le_trans this (le_max_right _ _)

theorem calculateLongestStreak_eq_foldMax (dates : List Nat)
    (att : Nat → MealEntry) :
    calculateLongestStreak dates att =
      foldMax (runEnds att 0 (List.insertionSort (· ≤ ·) dates)) := by
  rw [calculateLongestStreak, longestStreakGo_eq_foldMax]
  exact Nat.zero_max _

end StatisticsManager

/-- C4.  The longest streak is at least the current streak, and equals the
maximum length of a run of any-meal-attended entries over the whole
filtered (sorted) date set: it is achieved by some run and bounds every
run. -/
theorem longestStreak_ge_current_and_is_max (dates : List Nat)
    (att : Nat → MealEntry) :
    StatisticsManager.calculateCurrentStreak dates att ≤
      StatisticsManager.calculateLongestStreak dates att ∧
    StatisticsManager.IsAttendedRun att (List.insertionSort (· ≤ ·) dates)
      (StatisticsManager.calculateLongestStreak dates att) ∧
    ∀ n, StatisticsManager.IsAttendedRun att (List.insertionSort (· ≤ ·) dates) n →
      n ≤ StatisticsManager.calculateLongestStreak dates att := by
  set l := List.insertionSort (· ≤ ·) dates with hl
  have hbound : ∀ n, StatisticsManager.IsAttendedRun att l n →
      n ≤ StatisticsManager.calculateLongestStreak dates att := by
    intro n ⟨l₁, l₂, l₃, hsplit, hlen, hall⟩
    rw [StatisticsManager.calculateLongestStreak_eq_foldMax, ← hl, hsplit, ← hlen]
    exact StatisticsManager.runEnds_complete att l₁ l₂ l₃ hall 0
  refine ⟨?_, ?_, hbound⟩
  · -- the current streak is itself an attended run of the sorted date set
    apply hbound
    rw [StatisticsManager.calculateCurrentStreak, ← hl,
      StatisticsManager.currentStreakGo_eq_takeWhile]
    refine ⟨(l.reverse.dropWhile (fun d => anyMeal (att d))).reverse,
      (l.reverse.takeWhile (fun d => anyMeal (att d))).reverse, [], ?_, ?_, ?_⟩
    · rw [List.append_nil, ← List.reverse_append,
        List.takeWhile_append_dropWhile, List.reverse_reverse]
    · exact List.length_reverse _
    · intro d hd
      have hmem : d ∈ l.reverse.takeWhile (fun d => anyMeal (att d)) :=
        List.mem_reverse.mp hd
      have hp := List.mem_takeWhile_imp hmem
      exact hp
  · rw [StatisticsManager.calculateLongestStreak_eq_foldMax, ← hl]
    rcases StatisticsManager.foldMax_mem_or_zero
        (StatisticsManager.runEnds att 0 l) with h0 | hmem
    · rw [h0]
      exact ⟨[], [], l, by simp, rfl, by simp⟩
    · have := StatisticsManager.runEnds_sound att l 0 []
        ⟨[], [], rfl, rfl, by simp⟩ _ hmem
      simpa using this

/-- Witness for C4: a concrete use of the run-bound conjunct. -/
theorem longestStreak_ge_current_and_is_max_witness :
    StatisticsManager.IsAttendedRun (fun _ => ⟨true, false⟩)
      (List.insertionSort (· ≤ ·) [1, 3, 4]) 2 ∧
    2 ≤ StatisticsManager.calculateLongestStreak [1, 3, 4]
      (fun _ => ⟨true, false⟩) :=
  have hrun : StatisticsManager.IsAttendedRun (fun _ => ⟨true, false⟩)
      (List.insertionSort (· ≤ ·) [1, 3, 4]) 2 :=
    ⟨[1], [3, 4], [], by decide, by decide, by decide⟩
  ⟨hrun, (longestStreak_ge_current_and_is_max [1, 3, 4]
    (fun _ => ⟨true, false⟩)).2.2 2 hrun⟩

/-- C5.  Monthly statistics for January 2024 on the example map:
2024-01-01 lunch only, 2024-01-02 nothing, 2024-01-03 both meals. -/
theorem monthlyStats_example_jan2024 :
    (StatisticsManager.calculateMonthlyStats
        [(20240101, ⟨true, false⟩), (20240102, ⟨false, false⟩),
         (20240103, ⟨true, true⟩)]
        (fun d => d / 100 == 202401)).lunchCount = 2 ∧
    (StatisticsManager.calculateMonthlyStats
        [(20240101, ⟨true, false⟩), (20240102, ⟨false, false⟩),
         (20240103, ⟨true, true⟩)]
        (fun d => d / 100 == 202401)).dinnerCount = 1 ∧
    (StatisticsManager.calculateMonthlyStats
        [(20240101, ⟨true, false⟩), (20240102, ⟨false, false⟩),
         (20240103, ⟨true, true⟩)]
        (fun d => d / 100 == 202401)).bothMealsCount = 1 ∧
    (StatisticsManager.calculateMonthlyStats
        [(20240101, ⟨true, false⟩), (20240102, ⟨false, false⟩),
         (20240103, ⟨true, true⟩)]
        (fun d => d / 100 == 202401)).onlyLunchCount = 1 ∧
    (StatisticsManager.calculateMonthlyStats
        [(20240101, ⟨true, false⟩), (20240102, ⟨false, false⟩),
         (20240103, ⟨true, true⟩)]
        (fun d => d / 100 == 202401)).skippedBothCount = 1 ∧
    (StatisticsManager.calculateMonthlyStats
        [(20240101, ⟨true, false⟩), (20240102, ⟨false, false⟩),
         (20240103, ⟨true, true⟩)]
        (fun d => d / 100 == 202401)).attendancePercentage = (3 : ℚ) / 6 * 100 ∧
    (StatisticsManager.calculateMonthlyStats
        [(20240101, ⟨true, false⟩), (20240102, ⟨false, false⟩),
         (20240103, ⟨true, true⟩)]
        (fun d => d / 100 == 202401)).attendancePercentage = 50 := by
  refine ⟨by decide, by decide, by decide, by decide, by decide, ?_, ?_⟩
  · show toFixed1 (((3 : Nat) : ℚ) / ((6 : Nat) : ℚ) * 100) = (3 : ℚ) / 6 * 100
    rw [toFixed1]; norm_num [round_eq]
  · show toFixed1 (((3 : Nat) : ℚ) / ((6 : Nat) : ℚ) * 100) = 50
    rw [toFixed1]; norm_num [round_eq]

/-! ## Undo/redo round-trip -/

theorem AppData.ext2 {d₁ d₂ : AppData} (ha : d₁.attendance = d₂.attendance)
    (hn : d₁.notes = d₂.notes) (hs : d₁.summaries = d₂.summaries) : d₁ = d₂ := by
  cases d₁; cases d₂; cases ha; cases hn; cases hs; rfl

theorem setKey_same {β : Type} (m : Nat → Option β) (k : Nat) (v : Option β) :
    setKey m k v k = v := by simp [setKey]

theorem setKey_ne {β : Type} (m : Nat → Option β) (k : Nat) (v : Option β)
    (x : Nat) (hx : x ≠ k) : setKey m k v x = m x := by simp [setKey, hx]

theorem setKey_setKey {β : Type} (m : Nat → Option β) (k : Nat)
    (v w : Option β) : setKey (setKey m k v) k w = setKey m k w := by
  funext x; by_cases hx : x = k <;> simp [setKey, hx]

theorem setKey_eq_self {β : Type} (m : Nat → Option β) (k : Nat)
    (v : Option β) (h : m k = v) : setKey m k v = m := by
  funext x; by_cases hx : x = k <;> simp [setKey, hx, h.symm]

theorem MealEntry.set_set (r : MealEntry) (m : Meal) (b b' : Bool) :
    (r.set m b).set m b' = r.set m b' := by
  cases m <;> rfl

theorem MealEntry.set_get (r : MealEntry) (m : Meal) :
    r.set m (r.get m) = r := by
  cases m <;> rfl

/-- Post-state of a recorded action: what the shared data must look like
when the action is the next one to be undone, for undo and redo to be
mutually inverse there.  For mark/unmark the entry exists with the meal in
the recorded polarity, for the note actions the note matches, for
bulk_edit every change's newValue is in force, for delete_data the maps
are empty.  For delete_note the note is absent and the recorded deleted
note is truthy (JS skips the falsy-guarded redo delete of an empty-string
note, so an empty recorded note cancels only against a stored empty
note). -/
def postHolds : ActionData → AppData → Prop
  | ActionData.markAttendance date meal, d =>
    ∃ r, d.attendance date = some r ∧ r.get meal = true
  | ActionData.unmarkAttendance date meal, d =>
    ∃ r, d.attendance date = some r ∧ r.get meal = false
  | ActionData.addNote date note, d => d.notes date = some note
  | ActionData.editNote date _ newNote, d => d.notes date = some newNote
  | ActionData.deleteNote date note, d =>
    (d.notes date = none ∧ note ≠ "") ∨ (d.notes date = some "" ∧ note = "")
  | ActionData.bulkEdit changes, d =>
    ∀ c ∈ changes, d.attendance c.date = some c.newValue
  | ActionData.deleteData _ _ _, d =>
    (∀ x, d.attendance x = none) ∧ (∀ x, d.notes x = none) ∧
      (∀ x, d.summaries x = none)

/-- Resolve repeated writes: the value a left-to-right sequence of keyed
updates leaves at x is decided by the last change touching x. -/
theorem foldl_setKey_lookup (f : BulkChange → Option MealEntry) :
    ∀ (changes : List BulkChange) (m : Nat → Option MealEntry) (x : Nat),
      changes.foldl (fun m c => setKey m c.date (f c)) m x =
        match (changes.reverse.find? (fun c => c.date == x)) with
        | some c => f c
        | none => m x := by
  intro changes
  induction changes using List.reverseRecOn with
  | nil => intro m x; simp
  | append_singleton rest c ih =>
    intro m x
    rw [List.foldl_append, List.foldl_cons, List.foldl_nil, List.reverse_append]
    simp only [List.reverse_cons, List.reverse_nil, List.nil_append,
      List.cons_append, List.find?]
    by_cases hx : c.date = x
    · simp only [hx, beq_self_eq_true]
      exact setKey_same _ _ _
    · have hbeq : (c.date == x) = false := beq_eq_false_iff_ne.mpr hx
      simp only [hbeq]
      rw [setKey_ne _ _ _ _ (fun h => hx h.symm)] at *
      exact ih m x

theorem foldl_setKey_lookup_none (f : BulkChange → Option MealEntry)
    (changes : List BulkChange) (m : Nat → Option MealEntry) (x : Nat)
    (h : changes.reverse.find? (fun c => c.date == x) = none) :
    changes.foldl (fun m c => setKey m c.date (f c)) m x = m x := by
  rw [foldl_setKey_lookup, h]

theorem foldl_setKey_lookup_some (f : BulkChange → Option MealEntry)
    (changes : List BulkChange) (m : Nat → Option MealEntry) (x : Nat)
    (c : BulkChange) (h : changes.reverse.find? (fun c => c.date == x) = some c) :
    changes.foldl (fun m c => setKey m c.date (f c)) m x = f c := by
  rw [foldl_setKey_lookup, h]

/-- Core cancellation: when an action's post-state holds, redoing it right
after undoing it restores the shared data exactly. -/
theorem executeRedo_executeUndo (a : ActionData) (d : AppData)
    (h : postHolds a d) : executeRedo a (executeUndo a d) = d := by
  cases a with
  | markAttendance date meal =>
    rcases h with ⟨r, hr, hget⟩
    simp only [executeUndo, hr]
    simp only [executeRedo, setKey_same, Option.getD_some]
    refine AppData.ext2 ?_ rfl rfl
    rw [setKey_setKey, MealEntry.set_set, ← hget, MealEntry.set_get]
    exact setKey_eq_self _ _ _ hr
  | unmarkAttendance date meal =>
    rcases h with ⟨r, hr, hget⟩
    simp only [executeUndo, hr, Option.getD_some]
    simp only [executeRedo, setKey_same]
    refine AppData.ext2 ?_ rfl rfl
    rw [setKey_setKey, MealEntry.set_set, ← hget, MealEntry.set_get]
    exact setKey_eq_self _ _ _ hr
  | addNote date note =>
    simp only [postHolds] at h
    by_cases hne : note = ""
    · -- stored empty note is falsy: the undo delete is skipped
      have hg : jsTruthyStr (d.notes date) = false := by
        rw [h, hne]
        rfl
      simp only [executeUndo, hg, Bool.false_eq_true, if_false]
      simp only [executeRedo]
      refine AppData.ext2 rfl ?_ rfl
      exact setKey_eq_self _ _ _ (by rw [h, hne])
    · have hg : jsTruthyStr (d.notes date) = true := by
        rw [h]
        simpa [jsTruthyStr] using hne
      simp only [executeUndo, hg, if_true]
      simp only [executeRedo]
      refine AppData.ext2 rfl ?_ rfl
      rw [setKey_setKey]
      exact setKey_eq_self _ _ _ h
  | editNote date oldNote newNote =>
    simp only [postHolds] at h
    by_cases htr : jsTruthyStr oldNote = true <;>
      · simp only [executeUndo, htr, if_true, if_false, Bool.false_eq_true]
        simp only [executeRedo]
        refine AppData.ext2 rfl ?_ rfl
        rw [setKey_setKey]
        exact setKey_eq_self _ _ _ h
  | deleteNote date note =>
    simp only [postHolds] at h
    rcases h with ⟨hnone, hne⟩ | ⟨hsome, heq⟩
    · -- truthy note: the undo rewrites it, the redo delete fires
      have hg : jsTruthyStr (setKey d.notes date (some note) date) = true := by
        rw [setKey_same]
        simpa [jsTruthyStr] using hne
      simp only [executeUndo, executeRedo, hg, if_true]
      refine AppData.ext2 rfl ?_ rfl
      rw [setKey_setKey]
      exact setKey_eq_self _ _ _ hnone
    · -- empty recorded note: the redo's falsy guard skips the delete
      subst heq
      have hg : jsTruthyStr (setKey d.notes date (some "") date) = false := by
        rw [setKey_same]
        rfl
      simp only [executeUndo, executeRedo, hg, Bool.false_eq_true, if_false]
      refine AppData.ext2 rfl ?_ rfl
      exact setKey_eq_self _ _ _ hsome
  | bulkEdit changes =>
    simp only [postHolds] at h
    simp only [executeUndo, executeRedo]
    refine AppData.ext2 ?_ rfl rfl
    funext x
    show changes.foldl (fun m c => setKey m c.date (some c.newValue))
        (changes.foldl (fun m c => setKey m c.date c.oldValue) d.attendance)
        x = d.attendance x
    cases hfind : changes.reverse.find? (fun c => c.date == x) with
    | none =>
      rw [foldl_setKey_lookup_none _ _ _ _ hfind,
        foldl_setKey_lookup_none _ _ _ _ hfind]
    | some c =>
      rw [foldl_setKey_lookup_some _ _ _ _ _ hfind]
      have hmem : c ∈ changes := by
        have := List.mem_of_find?_eq_some hfind
        exact List.mem_reverse.mp this
      have hdate : c.date = x := by
        have := List.find?_some hfind
        exact beq_iff_eq.mp this
      rw [← hdate]
      exact (h c hmem).symm
  | deleteData att nts sums =>
    rcases h with ⟨ha, hn, hs⟩
    simp only [executeUndo, executeRedo]
    apply AppData.ext2 <;> funext x
    · exact (ha x).symm
    · exact (hn x).symm
    · exact (hs x).symm

/-- Chain of post-states along a sequence of undos: the first action's
post-state holds now, and the rest hold after it is undone. -/
def ConsistentUndoChain : AppData → List ActionData → Prop
  | _, [] => True
  | d, a :: rest => postHolds a d ∧ ConsistentUndoChain (executeUndo a d) rest

/-- The actions the next k undo calls will execute, most recent first. -/
def undoTargets (s : SysState) (k : Nat) : List ActionData :=
  ((s.mgr.history.take (s.mgr.currentIndex + 1).toNat).reverse).take k

theorem redoN_succ_outer (n : Nat) (s : SysState) :
    redoN (n + 1) s = redoStep (redoN n s) := by
  induction n generalizing s with
  | zero => rfl
  | succ k ih =>
    show redoN (k + 1) (redoStep s) = redoStep (redoN (k + 1) s)
    rw [ih (redoStep s)]
    rfl

theorem undoN_add (m n : Nat) (s : SysState) :
    undoN (m + n) s = undoN n (undoN m s) := by
  induction m generalizing s with
  | zero => rw [Nat.zero_add]; rfl
  | succ k ih =>
    have h : k + 1 + n = (k + n) + 1 := by omega
    rw [h]
    show undoN (k + n) (undoStep s) = undoN n (undoN (k + 1) s)
    rw [ih (undoStep s)]; rfl

theorem redoN_add (m n : Nat) (s : SysState) :
    redoN (m + n) s = redoN n (redoN m s) := by
  induction m generalizing s with
  | zero => rw [Nat.zero_add]; rfl
  | succ k ih =>
    have h : k + 1 + n = (k + n) + 1 := by omega
    rw [h]
    show redoN (k + n) (redoStep s) = redoN n (redoN (k + 1) s)
    rw [ih (redoStep s)]; rfl

theorem undoStep_noop (s : SysState) (h : canUndo s.mgr = false) :
    undoStep s = s := by
  rw [undoStep, h]
  simp

theorem redoStep_noop (s : SysState) (h : canRedo s.mgr = false) :
    redoStep s = s := by
  rw [redoStep, h]
  simp

theorem undoN_noop (k : Nat) (s : SysState) (h : canUndo s.mgr = false) :
    undoN k s = s := by
  induction k with
  | zero => rfl
  | succ n ih =>
    show undoN n (undoStep s) = s
    rw [undoStep_noop s h]
    exact ih

theorem redoN_noop (k : Nat) (s : SysState) (h : canRedo s.mgr = false) :
    redoN k s = s := by
  induction k with
  | zero => rfl
  | succ n ih =>
    show redoN n (redoStep s) = s
    rw [redoStep_noop s h]
    exact ih

/-- Telescoping round trip: E effective undos followed by E redos restore
the full state, provided the chained post-states hold. -/
theorem roundTrip (E : Nat) : ∀ (s : SysState),
    (E : Int) ≤ s.mgr.currentIndex + 1 →
    s.mgr.currentIndex < (s.mgr.history.length : Int) →
    ConsistentUndoChain s.data (undoTargets s E) →
    redoN E (undoN E s) = s := by
  induction E with
  | zero => intro s _ _ _; rfl
  | succ k ih =>
    intro s hE hlen hchain
    have hidx0 : 0 ≤ s.mgr.currentIndex := by
      have : ((k : Int) + 1) ≤ s.mgr.currentIndex + 1 := by exact_mod_cast hE
      omega
    have hcan : canUndo s.mgr = true := by
      rw [canUndo]; exact decide_eq_true hidx0
    have hnat : s.mgr.currentIndex.toNat < s.mgr.history.length := by
      omega
    have hgetsome : s.mgr.history[s.mgr.currentIndex.toNat]? =
        some (s.mgr.history.get ⟨s.mgr.currentIndex.toNat, hnat⟩) := by
      rw [List.getElem?_eq_getElem hnat]
      rfl
    set a := s.mgr.history.get ⟨s.mgr.currentIndex.toNat, hnat⟩ with ha
    have hundo : undoStep s =
        ⟨⟨s.mgr.history, s.mgr.currentIndex - 1⟩, executeUndo a s.data⟩ := by
      rw [undoStep, hcan]
      simp only [if_true, hgetsome]
    -- decompose the chain hypothesis
    have htake : (s.mgr.history.take (s.mgr.currentIndex + 1).toNat).reverse =
        a :: (s.mgr.history.take s.mgr.currentIndex.toNat).reverse := by
      have h1 : (s.mgr.currentIndex + 1).toNat = s.mgr.currentIndex.toNat + 1 := by
        omega
      rw [h1, ← List.take_concat_get _ _ hnat, List.concat_eq_append,
        List.reverse_append]
      rfl
    have hchain' : postHolds a s.data ∧
        ConsistentUndoChain (executeUndo a s.data)
          ((s.mgr.history.take s.mgr.currentIndex.toNat).reverse.take k) := by
      rw [undoTargets, htake] at hchain
      exact hchain
    have htail : undoTargets (undoStep s) k =
        (s.mgr.history.take s.mgr.currentIndex.toNat).reverse.take k := by
      rw [undoTargets, hundo]
      have : (s.mgr.currentIndex - 1 + 1).toNat = s.mgr.currentIndex.toNat := by
        omega
      rw [this]
    have hihyp := ih (undoStep s)
      (by rw [hundo]; simp only; omega)
      (by rw [hundo]; simp only; omega)
      (by rw [htail, hundo]; exact hchain'.2)
    show redoN (k + 1) (undoN k (undoStep s)) = s
    rw [redoN_succ_outer, hihyp, hundo]
    have hcanredo : canRedo (⟨⟨s.mgr.history, s.mgr.currentIndex - 1⟩,
        executeUndo a s.data⟩ : SysState).mgr = true := by
      rw [canRedo]
      apply decide_eq_true
      simp only
      omega
    rw [redoStep, hcanredo]
    simp only [if_true]
    have hback : (s.mgr.currentIndex - 1 + 1).toNat = s.mgr.currentIndex.toNat := by
      omega
    rw [hback, hgetsome]
    have hmgr : (⟨s.mgr.history, s.mgr.currentIndex - 1 + 1⟩ : UndoMgr) = s.mgr := by
      have h2 : s.mgr.currentIndex - 1 + 1 = s.mgr.currentIndex := by omega
      rw [h2]
    show (⟨⟨s.mgr.history, s.mgr.currentIndex - 1 + 1⟩,
      executeRedo a (executeUndo a s.data)⟩ : SysState) = s
    rw [hmgr, executeRedo_executeUndo a s.data hchain'.1]

/-- After a fresh load the cursor always sits at the end of the history;
recording keeps it there and keeps the history within capacity. -/
def FullCursor (m : UndoMgr) : Prop :=
  m.currentIndex = (m.history.length : Int) - 1 ∧
    m.history.length ≤ maxHistorySize

theorem recordAction_fullCursor (a : ActionData) (m : UndoMgr)
    (h : FullCursor m) : FullCursor (recordAction a m) := by
  obtain ⟨hidx, hlen⟩ := h
  have h1 : (m.currentIndex + 1).toNat = m.history.length := by omega
  simp only [recordAction, h1, List.take_length]
  split
  · next hcap =>
    simp only [List.length_append, List.length_cons, List.length_nil] at hcap
    refine ⟨?_, ?_⟩ <;>
      simp only [FullCursor, List.length_drop, List.length_append,
        List.length_cons, List.length_nil] <;> omega
  · next hcap =>
    simp only [List.length_append, List.length_cons, List.length_nil] at hcap
    refine ⟨?_, ?_⟩ <;>
      simp only [FullCursor, List.length_append, List.length_cons,
        List.length_nil] <;> omega

theorem recordMany_fullCursor (acts : List ActionData) :
    ∀ (s : SysState), FullCursor s.mgr →
      FullCursor (recordMany acts s).mgr := by
  induction acts with
  | nil => intro s h; exact h
  | cons a rest ih =>
    intro s h
    exact ih (recordStep a s) (recordAction_fullCursor a s.mgr h)

theorem recordMany_data (acts : List ActionData) :
    ∀ (s : SysState), (recordMany acts s).data = s.data := by
  induction acts with
  | nil => intro s; rfl
  | cons a rest ih => intro s; exact ih (recordStep a s)

theorem initMgr_fullCursor : FullCursor initMgr := by
  refine ⟨rfl, ?_⟩
  simp [initMgr, maxHistorySize]

theorem undoN_mgr (E : Nat) : ∀ (s : SysState),
    (E : Int) ≤ s.mgr.currentIndex + 1 →
    (undoN E s).mgr = ⟨s.mgr.history, s.mgr.currentIndex - E⟩ := by
  induction E with
  | zero =>
    intro s _
    show s.mgr = _
    have h0 : s.mgr.currentIndex - (0 : Nat) = s.mgr.currentIndex := by omega
    rw [h0]
  | succ k ih =>
    intro s hE
    have hcan : canUndo s.mgr = true := by
      rw [canUndo]
      apply decide_eq_true
      have : ((k : Int) + 1) ≤ s.mgr.currentIndex + 1 := by exact_mod_cast hE
      omega
    show (undoN k (undoStep s)).mgr = _
    rw [undoStep, hcan, if_pos rfl]
    rw [ih _ (by simp only; omega)]
    have h2 : s.mgr.currentIndex - 1 - k = s.mgr.currentIndex - (k + 1 : Nat) := by
      push_cast
      omega
    simp only at h2 ⊢
    rw [h2]

/-- C1, amended.  N recorded actions, K ≤ N undos, K redos: the shared
data is restored exactly, provided the recorded actions are consistent
with the data (each undone action's post-state holds when its undo runs).
The counterexample below shows the claim fails without that proviso. -/
theorem undo_redo_restores_data (acts : List ActionData) (K : Nat)
    (d0 : AppData) (hK : K ≤ acts.length)
    (hchain : ConsistentUndoChain d0
      (undoTargets (recordMany acts ⟨initMgr, d0⟩) K)) :
    (redoN K (undoN K (recordMany acts ⟨initMgr, d0⟩))).data =
      (recordMany acts ⟨initMgr, d0⟩).data := by
  set s0 := recordMany acts ⟨initMgr, d0⟩ with hs0
  have hd0 : s0.data = d0 := recordMany_data acts _
  rw [← hd0] at hchain
  obtain ⟨hidx, hlen⟩ := recordMany_fullCursor acts ⟨initMgr, d0⟩ initMgr_fullCursor
  rw [← hs0] at hidx hlen
  by_cases hKL : K ≤ s0.mgr.history.length
  · rw [roundTrip K s0 (by omega) (by omega) hchain]
  · push_neg at hKL
    set L := s0.mgr.history.length with hL
    have htar : undoTargets s0 K = undoTargets s0 L := by
      rw [undoTargets, undoTargets]
      have h1 : (s0.mgr.currentIndex + 1).toNat = L := by omega
      rw [h1, List.take_length]
      have e1 : s0.mgr.history.reverse.take K = s0.mgr.history.reverse :=
        List.take_of_length_le (by rw [List.length_reverse]; omega)
      have e2 : s0.mgr.history.reverse.take L = s0.mgr.history.reverse :=
        List.take_of_length_le (by rw [List.length_reverse])
      rw [e1, e2]
    rw [htar] at hchain
    have hrt := roundTrip L s0 (by omega) (by omega) hchain
    have hysplit : K = L + (K - L) := by omega
    rw [hysplit, undoN_add, redoN_add]
    have hy := undoN_mgr L s0 (by omega)
    have hyc : canUndo (undoN L s0).mgr = false := by
      rw [hy, canUndo]
      apply decide_eq_false
      simp only
      omega
    rw [undoN_noop (K - L) _ hyc, hrt]
    have hsc : canRedo s0.mgr = false := by
      rw [canRedo]
      apply decide_eq_false
      omega
    rw [redoN_noop (K - L) s0 hsc]

/-- C1, counterexample to the claim as stated: record a mark-attendance
action while the shared attendance map is empty (one record, one undo,
one redo).  The undo finds no entry and does nothing, the redo then
creates the entry, so the state after the redo differs from the state
before the undo. -/
theorem undo_redo_claim_cex :
    1 ≤ List.length [ActionData.markAttendance 1 Meal.lunch] ∧
    ¬ ((redoN 1 (undoN 1 (recordMany [ActionData.markAttendance 1 Meal.lunch]
          ⟨initMgr, ⟨fun _ => none, fun _ => none, fun _ => none⟩⟩))).data =
        (recordMany [ActionData.markAttendance 1 Meal.lunch]
          ⟨initMgr, ⟨fun _ => none, fun _ => none, fun _ => none⟩⟩).data) := by
  refine ⟨by decide, fun h => ?_⟩
  have h1 := congrArg (fun d : AppData => d.attendance 1) h
  have h2 : (some (MealEntry.mk true false) : Option MealEntry) =
      (none : Option MealEntry) := h1
  cases h2

/-- Witness for the amended C1 theorem: one consistent mark-attendance
action, one undo, one redo. -/
theorem undo_redo_restores_data_witness :
    (1 ≤ List.length [ActionData.markAttendance 1 Meal.lunch] ∧
      ConsistentUndoChain
        ⟨fun x => if x = 1 then some ⟨true, false⟩ else none,
          fun _ => none, fun _ => none⟩
        (undoTargets (recordMany [ActionData.markAttendance 1 Meal.lunch]
          ⟨initMgr, ⟨fun x => if x = 1 then some ⟨true, false⟩ else none,
            fun _ => none, fun _ => none⟩⟩) 1)) ∧
    (redoN 1 (undoN 1 (recordMany [ActionData.markAttendance 1 Meal.lunch]
        ⟨initMgr, ⟨fun x => if x = 1 then some ⟨true, false⟩ else none,
          fun _ => none, fun _ => none⟩⟩))).data =
      (recordMany [ActionData.markAttendance 1 Meal.lunch]
        ⟨initMgr, ⟨fun x => if x = 1 then some ⟨true, false⟩ else none,
          fun _ => none, fun _ => none⟩⟩).data :=
  have hchain : ConsistentUndoChain
      ⟨fun x => if x = 1 then some ⟨true, false⟩ else none,
        fun _ => none, fun _ => none⟩
      (undoTargets (recordMany [ActionData.markAttendance 1 Meal.lunch]
        ⟨initMgr, ⟨fun x => if x = 1 then some ⟨true, false⟩ else none,
          fun _ => none, fun _ => none⟩⟩) 1) :=
    ⟨⟨⟨true, false⟩, rfl, rfl⟩, trivial⟩
  ⟨⟨by decide, hchain⟩,
    undo_redo_restores_data [ActionData.markAttendance 1 Meal.lunch] 1
      ⟨fun x => if x = 1 then some ⟨true, false⟩ else none,
        fun _ => none, fun _ => none⟩ (by decide) hchain⟩

theorem undoN_mgr_minned (M : Nat) (acts : List ActionData) (d0 : AppData) :
    (undoN M (recordMany acts ⟨initMgr, d0⟩)).mgr =
      ⟨(recordMany acts ⟨initMgr, d0⟩).mgr.history,
        ((recordMany acts ⟨initMgr, d0⟩).mgr.history.length : Int) - 1 -
          (min M (recordMany acts ⟨initMgr, d0⟩).mgr.history.length : Nat)⟩ := by
  set s0 := recordMany acts ⟨initMgr, d0⟩ with hs0
  obtain ⟨hidx, hlen⟩ := recordMany_fullCursor acts ⟨initMgr, d0⟩ initMgr_fullCursor
  rw [← hs0] at hidx hlen
  set L := s0.mgr.history.length with hL
  by_cases hML : M ≤ L
  · have := undoN_mgr M s0 (by omega)
    rw [this, hidx]
    have hmin : min M L = M := Nat.min_eq_left hML
    rw [hmin]
  · push_neg at hML
    have hsplit : M = L + (M - L) := by omega
    rw [hsplit, undoN_add]
    have hy := undoN_mgr L s0 (by omega)
    have hyc : canUndo (undoN L s0).mgr = false := by
      rw [hy, canUndo]
      apply decide_eq_false
      simp only
      omega
    rw [undoN_noop (M - L) _ hyc, hy, hidx]
    have hmin : min (L + (M - L)) L = L := by omega
    rw [hmin]

/-- C2.  Recording a new action after M ≥ 1 undos truncates the history to
the still-undoable prefix plus the new action — the min(M, N) entries that
were available for redo are discarded — and redo is unavailable after. -/
theorem recordAction_after_undos_truncates (acts : List ActionData) (M : Nat)
    (a : ActionData) (d0 : AppData) (hM : 1 ≤ M) :
    (recordAction a (undoN M (recordMany acts ⟨initMgr, d0⟩)).mgr).history =
      (recordMany acts ⟨initMgr, d0⟩).mgr.history.take
        ((recordMany acts ⟨initMgr, d0⟩).mgr.history.length -
          min M (recordMany acts ⟨initMgr, d0⟩).mgr.history.length) ++ [a] ∧
    canRedo (recordAction a (undoN M (recordMany acts ⟨initMgr, d0⟩)).mgr) =
      false := by
  set s0 := recordMany acts ⟨initMgr, d0⟩ with hs0
  obtain ⟨hidx, hlen⟩ := recordMany_fullCursor acts ⟨initMgr, d0⟩ initMgr_fullCursor
  rw [← hs0] at hidx hlen
  have hm := undoN_mgr_minned M acts d0
  rw [← hs0] at hm
  set L := s0.mgr.history.length with hL
  set M' := min M L with hM'
  have hMle : M' ≤ L := Nat.min_le_right _ _
  have hM1 : L = 0 ∨ 1 ≤ M' := by
    rcases Nat.eq_zero_or_pos L with h0 | hpos
    · exact Or.inl h0
    · exact Or.inr (by omega)
  rw [hm]
  have htoNat : (((L : Int) - 1 - (M' : Nat)) + 1).toNat = L - M' := by omega
  have hnoshift : ¬ (maxHistorySize <
      (s0.mgr.history.take (L - M') ++ [a]).length) := by
    rw [List.length_append, List.length_take]
    have hmax : maxHistorySize = 50 := rfl
    have hone : ([a].length : Nat) = 1 := rfl
    omega
  constructor
  · simp only [recordAction, htoNat]
    rw [if_neg hnoshift]
  · simp only [recordAction, htoNat]
    rw [if_neg hnoshift, canRedo]
    apply decide_eq_false
    simp only [List.length_append, List.length_take, List.length_cons,
      List.length_nil]
    rw [Nat.min_eq_left (by omega : L - M' ≤ s0.mgr.history.length)]
    omega

/-- Witness for C2: two recorded actions, one undo, then a new action. -/
theorem recordAction_after_undos_truncates_witness :
    (1 : Nat) ≤ 1 ∧
    (recordAction (ActionData.markAttendance 3 Meal.dinner)
        (undoN 1 (recordMany [ActionData.markAttendance 1 Meal.lunch,
          ActionData.markAttendance 2 Meal.dinner]
          ⟨initMgr, ⟨fun _ => none, fun _ => none, fun _ => none⟩⟩)).mgr).history =
      (recordMany [ActionData.markAttendance 1 Meal.lunch,
          ActionData.markAttendance 2 Meal.dinner]
        ⟨initMgr, ⟨fun _ => none, fun _ => none, fun _ => none⟩⟩).mgr.history.take
        ((recordMany [ActionData.markAttendance 1 Meal.lunch,
            ActionData.markAttendance 2 Meal.dinner]
          ⟨initMgr, ⟨fun _ => none, fun _ => none, fun _ => none⟩⟩).mgr.history.length -
          min 1 (recordMany [ActionData.markAttendance 1 Meal.lunch,
            ActionData.markAttendance 2 Meal.dinner]
          ⟨initMgr, ⟨fun _ => none, fun _ => none, fun _ => none⟩⟩).mgr.history.length) ++
        [ActionData.markAttendance 3 Meal.dinner] ∧
    canRedo (recordAction (ActionData.markAttendance 3 Meal.dinner)
        (undoN 1 (recordMany [ActionData.markAttendance 1 Meal.lunch,
          ActionData.markAttendance 2 Meal.dinner]
          ⟨initMgr, ⟨fun _ => none, fun _ => none, fun _ => none⟩⟩)).mgr) = false :=
  have h := recordAction_after_undos_truncates
    [ActionData.markAttendance 1 Meal.lunch,
      ActionData.markAttendance 2 Meal.dinner] 1
    (ActionData.markAttendance 3 Meal.dinner)
    ⟨fun _ => none, fun _ => none, fun _ => none⟩ (by decide)
  ⟨by decide, h.1, h.2⟩

/-! ## Capacity invariant and history reload -/

/-- The four public operations that touch the manager state. -/
inductive UndoOp
  | record (a : ActionData)
  | undo
  | redo
  | clear

/-- Dispatch one operation on the combined state. -/
def applyOp (s : SysState) : UndoOp → SysState
  | UndoOp.record a => recordStep a s
  | UndoOp.undo => undoStep s
  | UndoOp.redo => redoStep s
  | UndoOp.clear => clearStep s

/-- Run a sequence of operations from a starting state. -/
def runOps (ops : List UndoOp) (s : SysState) : SysState :=
  ops.foldl applyOp s

/-- Structural invariant of the manager: the cursor stays in range and the
history stays within capacity. -/
def MgrInv (m : UndoMgr) : Prop :=
  -1 ≤ m.currentIndex ∧ m.currentIndex < (m.history.length : Int) ∧
    m.history.length ≤ maxHistorySize

theorem recordAction_inv (a : ActionData) (m : UndoMgr) (h : MgrInv m) :
    MgrInv (recordAction a m) := by
  obtain ⟨h1, h2, h3⟩ := h
  have hmax : maxHistorySize = 50 := rfl
  have htk : (m.history.take (m.currentIndex + 1).toNat).length =
      (m.currentIndex + 1).toNat := by
    rw [List.length_take]
    omega
  have hone : ([a].length : Nat) = 1 := rfl
  simp only [recordAction]
  split
  · next hcap =>
    rw [List.length_append, htk, hone] at hcap
    refine ⟨by simp only; omega, ?_, ?_⟩ <;>
      simp only [MgrInv, List.length_drop, List.length_append, htk, hone] <;>
      omega
  · next hcap =>
    rw [List.length_append, htk, hone] at hcap
    refine ⟨by simp only; omega, ?_, ?_⟩ <;>
      simp only [MgrInv, List.length_append, htk, hone] <;> omega

theorem undoStep_inv (s : SysState) (h : MgrInv s.mgr) :
    MgrInv (undoStep s).mgr := by
  rw [undoStep]
  by_cases hc : canUndo s.mgr = true
  · rw [if_pos hc]
    rw [canUndo] at hc
    have := of_decide_eq_true hc
    obtain ⟨h1, h2, h3⟩ := h
    exact ⟨by simp only; omega, by simp only; omega, h3⟩
  · rw [if_neg hc]; exact h

theorem redoStep_inv (s : SysState) (h : MgrInv s.mgr) :
    MgrInv (redoStep s).mgr := by
  rw [redoStep]
  by_cases hc : canRedo s.mgr = true
  · rw [if_pos hc]
    rw [canRedo] at hc
    have := of_decide_eq_true hc
    obtain ⟨h1, h2, h3⟩ := h
    exact ⟨by simp only; omega, by simp only; omega, h3⟩
  · rw [if_neg hc]; exact h

theorem initMgr_inv : MgrInv initMgr := by
  refine ⟨by norm_num [initMgr], by norm_num [initMgr], ?_⟩
  simp [initMgr, maxHistorySize]

theorem runOps_inv (ops : List UndoOp) : ∀ (s : SysState), MgrInv s.mgr →
    MgrInv (runOps ops s).mgr := by
  induction ops with
  | nil => intro s h; exact h
  | cons op rest ih =>
    intro s h
    refine ih (applyOp s op) ?_
    cases op with
    | record a => exact recordAction_inv a s.mgr h
    | undo => exact undoStep_inv s h
    | redo => exact redoStep_inv s h
    | clear => exact initMgr_inv



/-- C7.  Every state reachable from a fresh manager by recordAction, undo,
redo and clearHistory keeps at most 50 history entries, and a recordAction
whose sliced-plus-pushed history would exceed the capacity evicts the
oldest entry (the head) instead of advancing the cursor. -/
theorem history_capacity_and_eviction :
    (∀ (ops : List UndoOp) (d0 : AppData),
      (runOps ops ⟨initMgr, d0⟩).mgr.history.length ≤ 50) ∧
    (∀ (m : UndoMgr) (a : ActionData),
      maxHistorySize < (m.history.take (m.currentIndex + 1).toNat ++ [a]).length →
      (recordAction a m).history =
        (m.history.take (m.currentIndex + 1).toNat ++ [a]).drop 1 ∧
      (recordAction a m).currentIndex = m.currentIndex) := by
  constructor
  · intro ops d0
    exact (runOps_inv ops ⟨initMgr, d0⟩ initMgr_inv).2.2
  · intro m a hcap
    simp only [recordAction]
    rw [if_pos hcap]
    exact ⟨rfl, rfl⟩

/-- Witness for C7: a full 50-entry manager evicts on the 51st record. -/
theorem history_capacity_and_eviction_witness :
    (maxHistorySize <
      ((List.replicate 50 (ActionData.markAttendance 0 Meal.lunch)).take
          ((49 : Int) + 1).toNat ++ [ActionData.markAttendance 1 Meal.lunch]).length) ∧
    ((recordAction (ActionData.markAttendance 1 Meal.lunch)
        ⟨List.replicate 50 (ActionData.markAttendance 0 Meal.lunch), 49⟩).history =
      ((List.replicate 50 (ActionData.markAttendance 0 Meal.lunch)).take
          ((49 : Int) + 1).toNat ++ [ActionData.markAttendance 1 Meal.lunch]).drop 1 ∧
      (recordAction (ActionData.markAttendance 1 Meal.lunch)
        ⟨List.replicate 50 (ActionData.markAttendance 0 Meal.lunch), 49⟩).currentIndex =
        (49 : Int)) :=
  have hcap : maxHistorySize <
      ((List.replicate 50 (ActionData.markAttendance 0 Meal.lunch)).take
          ((49 : Int) + 1).toNat ++ [ActionData.markAttendance 1 Meal.lunch]).length := by
    rw [List.length_append, List.length_take, List.length_replicate]
    decide
  ⟨hcap, history_capacity_and_eviction.2
    ⟨List.replicate 50 (ActionData.markAttendance 0 Meal.lunch), 49⟩
    (ActionData.markAttendance 1 Meal.lunch) hcap⟩

/-- C10.  Reloading a saved history whose stored cursor is 0 (exactly one
undoable action): the falsy-zero default sets the cursor to -1, so undo is
unavailable even though the one-action history did load. -/
theorem loadHistory_zero_cursor (a : ActionData) :
    (loadHistory [a] 0).currentIndex = -1 ∧
    canUndo (loadHistory [a] 0) = false ∧
    (loadHistory [a] 0).history = [a] := by
  refine ⟨rfl, ?_, rfl⟩
  rw [canUndo]
  apply decide_eq_false
  show ¬ (0 ≤ (loadHistory [a] 0).currentIndex)
  norm_num [loadHistory, jsNumOr]

/-! ## Storage quota handling (StorageManager) -/

/-- Outcome of one localStorage.setItem attempt, decided by the browser
environment: success, quota exhaustion, or any other exception. -/
inductive SetOutcome
  | ok
  | quotaExceeded
  | otherError
deriving DecidableEq, Repr

/-- The two date-keyed documents cleanOldData rewrites.  The opaque target
key/value being written by safeSetItem lives outside these documents and
is not modelled (the claims only concern the cleanup and the outcome). -/
structure StoreData where
  attendance : List (Nat × MealEntry)
  notes : List (Nat × String)
deriving DecidableEq, Repr

namespace StorageManager

/-- StorageManager.cleanOldData: delete attendance and notes entries
strictly older than the cutoff date, count the deletions, and write the
documents back only when something was deleted. -/
def cleanOldData (cutoff : Nat) (s : StoreData) : StoreData × Nat :=
  let att := s.attendance.filter (fun e => !(decide (e.1 < cutoff)))
  let nts := s.notes.filter (fun e => !(decide (e.1 < cutoff)))
  let cleaned := (s.attendance.length - att.length) + (s.notes.length - nts.length)
  (if 0 < cleaned then ⟨att, nts⟩ else s, cleaned)

/-- StorageManager.safeSetItem.  The two setItem attempts' outcomes are
environment inputs.  Result: the store after any cleanup, the boolean
returned, and whether the storage-full warning toast was shown; a
non-quota error on the first attempt is rethrown. -/
def safeSetItem (first retryOutcome : SetOutcome) (cutoff : Nat)
    (s : StoreData) : Except Unit (StoreData × Bool × Bool) :=
  match first with
  | SetOutcome.ok => Except.ok (s, true, false)
  | SetOutcome.otherError => Except.error ()
  | SetOutcome.quotaExceeded =>
    let c := cleanOldData cutoff s
    if 0 < c.2 then
      match retryOutcome with
      | SetOutcome.ok => Except.ok (c.1, true, false)
      | _ => Except.ok (c.1, false, false)
    else Except.ok (c.1, false, true)

end StorageManager

/-- C8, counterexample to the claim as stated: a store with one stale
attendance entry, quota errors on both attempts.  The cleanup removes the
entry, the one retry fails, and safeSetItem returns false WITHOUT the
user-facing warning (the warning fires only when nothing was cleaned, a
path that also performs no retry). -/
theorem safeSetItem_claim_cex :
    StorageManager.safeSetItem SetOutcome.quotaExceeded SetOutcome.quotaExceeded
      10 ⟨[(1, ⟨true, false⟩)], []⟩ =
      Except.ok (⟨[], []⟩, false, false) := rfl

/-- C8, amended.  On a quota error the cleanup pass always runs and keeps
exactly the entries at or after the cutoff; the write is retried once if
and only if the cleanup deleted something, false is returned whenever the
(possibly retried) write did not succeed, and the user-facing warning is
shown exactly when nothing could be cleaned (no retry happens then). -/
theorem safeSetItem_quota_spec (retryOutcome : SetOutcome) (cutoff : Nat)
    (s : StoreData) :
    (∀ d v, (d, v) ∈ (StorageManager.cleanOldData cutoff s).1.attendance ↔
      ((d, v) ∈ s.attendance ∧ ¬ (d < cutoff))) ∧
    (∀ d v, (d, v) ∈ (StorageManager.cleanOldData cutoff s).1.notes ↔
      ((d, v) ∈ s.notes ∧ ¬ (d < cutoff))) ∧
    (0 < (StorageManager.cleanOldData cutoff s).2 →
      StorageManager.safeSetItem SetOutcome.quotaExceeded retryOutcome cutoff s =
        Except.ok ((StorageManager.cleanOldData cutoff s).1,
          retryOutcome == SetOutcome.ok, false)) ∧
    ((StorageManager.cleanOldData cutoff s).2 = 0 →
      StorageManager.safeSetItem SetOutcome.quotaExceeded retryOutcome cutoff s =
        Except.ok (s, false, true)) := by
  have hcln : (StorageManager.cleanOldData cutoff s).1 =
      if 0 < (StorageManager.cleanOldData cutoff s).2 then
        (⟨s.attendance.filter (fun e => !(decide (e.1 < cutoff))),
          s.notes.filter (fun e => !(decide (e.1 < cutoff)))⟩ : StoreData)
      else s := rfl
  have hc2 : (StorageManager.cleanOldData cutoff s).2 =
      (s.attendance.length -
        (s.attendance.filter (fun e => !(decide (e.1 < cutoff)))).length) +
      (s.notes.length -
        (s.notes.filter (fun e => !(decide (e.1 < cutoff)))).length) := rfl
  have hfilt : ∀ (d : Nat), ∀ (v : MealEntry),
      ((d, v) ∈ s.attendance.filter (fun e => !(decide (e.1 < cutoff))) ↔
        ((d, v) ∈ s.attendance ∧ ¬ (d < cutoff))) := by
    intro d v
    rw [List.mem_filter]
    simp
  have hfiltn : ∀ (d : Nat), ∀ (v : String),
      ((d, v) ∈ s.notes.filter (fun e => !(decide (e.1 < cutoff))) ↔
        ((d, v) ∈ s.notes ∧ ¬ (d < cutoff))) := by
    intro d v
    rw [List.mem_filter]
    simp
  have hzero : (StorageManager.cleanOldData cutoff s).2 = 0 →
      (s.attendance.filter (fun e => !(decide (e.1 < cutoff))) = s.attendance ∧
        s.notes.filter (fun e => !(decide (e.1 < cutoff))) = s.notes) := by
    intro h0
    rw [hc2] at h0
    have hsa := List.length_filter_le (fun e => !(decide (e.1 < cutoff))) s.attendance
    have hsn := List.length_filter_le (fun e => !(decide (e.1 < cutoff))) s.notes
    constructor
    · exact (List.filter_sublist _).eq_of_length (by omega)
    · exact (List.filter_sublist _).eq_of_length (by omega)
  refine ⟨?_, ?_, ?_, ?_⟩
  · intro d v
    rw [hcln]
    by_cases h0 : 0 < (StorageManager.cleanOldData cutoff s).2
    · rw [if_pos h0]
      exact hfilt d v
    · rw [if_neg h0]
      have h0' : (StorageManager.cleanOldData cutoff s).2 = 0 := by omega
      have hh := hfilt d v
      rw [(hzero h0').1] at hh
      exact hh
  · intro d v
    rw [hcln]
    by_cases h0 : 0 < (StorageManager.cleanOldData cutoff s).2
    · rw [if_pos h0]
      exact hfiltn d v
    · rw [if_neg h0]
      have h0' : (StorageManager.cleanOldData cutoff s).2 = 0 := by omega
      have hh := hfiltn d v
      rw [(hzero h0').2] at hh
      exact hh
  · intro h0
    show (if 0 < (StorageManager.cleanOldData cutoff s).2 then _ else _) = _
    rw [if_pos h0]
    cases retryOutcome <;> simp
  · intro h0
    show (if 0 < (StorageManager.cleanOldData cutoff s).2 then _ else _) = _
    rw [if_neg (by omega)]
    rw [hcln, if_neg (by omega)]

/-- Witness for C8: quota error with one stale entry and a successful
retry. -/
theorem safeSetItem_quota_spec_witness :
    0 < (StorageManager.cleanOldData 10 ⟨[(1, ⟨true, false⟩)], []⟩).2 ∧
    StorageManager.safeSetItem SetOutcome.quotaExceeded SetOutcome.ok 10
        ⟨[(1, ⟨true, false⟩)], []⟩ =
      Except.ok ((StorageManager.cleanOldData 10 ⟨[(1, ⟨true, false⟩)], []⟩).1,
        (SetOutcome.ok == SetOutcome.ok), false) :=
  ⟨by decide, (safeSetItem_quota_spec SetOutcome.ok 10
    ⟨[(1, ⟨true, false⟩)], []⟩).2.2.1 (by decide)⟩

/-! ## Scheduled notification check (NotificationManager) -/

/-- One scheduled reminder entry (title/body/action are display-only and
omitted). -/
structure SchedNotif where
  id : String
  mealType : Meal
  time : String
deriving DecidableEq, Repr

/-- Truthiness of attendance && attendance[mealType] for today. -/
def isMarked (att : Nat → Option MealEntry) (today : Nat) (meal : Meal) :
    Bool :=
  match att today with
  | some r => r.get meal
  | none => false

namespace NotificationManager

/-- NotificationManager.checkScheduledNotifications: bail out if the
current HH:MM minute was already checked, otherwise remember the minute
and fire every scheduled entry matching the minute whose meal is not yet
marked today.  Returns the new lastCheckedMinute and the fired entries. -/
def checkScheduledNotifications (lastCheckedMinute : Option String)
    (sched : List SchedNotif) (currentTime : String) (today : Nat)
    (att : Nat → Option MealEntry) : Option String × List SchedNotif :=
  if lastCheckedMinute = some currentTime then (lastCheckedMinute, [])
  else (some currentTime,
    sched.filter (fun n => n.time == currentTime &&
      !(isMarked att today n.mealType)))

end NotificationManager

/-- C9.  A fired reminder's meal is never already marked for today, a
check always records the current minute, and a repeat check during an
already-checked minute fires nothing and changes nothing. -/
theorem notifications_suppressed (lastCheckedMinute : Option String)
    (sched : List SchedNotif) (currentTime : String) (today : Nat)
    (att : Nat → Option MealEntry) :
    (∀ n ∈ (NotificationManager.checkScheduledNotifications lastCheckedMinute
        sched currentTime today att).2,
      isMarked att today n.mealType = false) ∧
    (NotificationManager.checkScheduledNotifications lastCheckedMinute
        sched currentTime today att).1 = some currentTime ∧
    (lastCheckedMinute = some currentTime →
      NotificationManager.checkScheduledNotifications lastCheckedMinute
        sched currentTime today att = (lastCheckedMinute, [])) := by
  rw [NotificationManager.checkScheduledNotifications]
  by_cases hsame : lastCheckedMinute = some currentTime
  · rw [if_pos hsame]
    exact ⟨fun n hn => absurd hn (List.not_mem_nil n), by rw [hsame], fun _ => rfl⟩
  · rw [if_neg hsame]
    refine ⟨?_, rfl, fun h => absurd h hsame⟩
    intro n hn
    have := List.of_mem_filter hn
    have hb := Bool.and_elim_right this
    rw [Bool.not_eq_true'] at hb
    exact hb

/-- Witness for C9: one lunch reminder at 12:00, lunch already marked. -/
theorem notifications_suppressed_witness :
    (∀ n ∈ (NotificationManager.checkScheduledNotifications none
        [⟨"lunch_at_time", Meal.lunch, "12:00"⟩] "12:00" 5
        (fun x => if x = 5 then some ⟨true, false⟩ else none)).2,
      isMarked (fun x => if x = 5 then some ⟨true, false⟩ else none) 5
        n.mealType = false) ∧
    ((some "12:00" : Option String) = some "12:00" →
      NotificationManager.checkScheduledNotifications (some "12:00")
          [⟨"lunch_at_time", Meal.lunch, "12:00"⟩] "12:00" 5
          (fun x => if x = 5 then some ⟨true, false⟩ else none) =
        (some "12:00", [])) :=
  ⟨(notifications_suppressed none [⟨"lunch_at_time", Meal.lunch, "12:00"⟩]
      "12:00" 5 (fun x => if x = 5 then some ⟨true, false⟩ else none)).1,
    (notifications_suppressed (some "12:00")
      [⟨"lunch_at_time", Meal.lunch, "12:00"⟩] "12:00" 5
      (fun x => if x = 5 then some ⟨true, false⟩ else none)).2.2⟩

/-! ## Month archiving (MessTrack.archivePreviousMonth, checkAndAutoReset) -/

/-- The MessTrack document as the archive code sees it.  Attendance and
notes are iterated, so they are association lists here; summaries is only
point-updated, so it stays a point function keyed by month index. -/
structure MTData where
  attendance : List (Nat × MealEntry)
  notes : List (Nat × String)
  summaries : Nat → Option MonthSummary

namespace MessTrack

/-- MessTrack.archivePreviousMonth: tally the given month's attendance
entries and, when the month has any, store a summary record under its
month key.  monthOf maps a date to its month index (the JS code matches
the date string against the YYYY-MM prefix).  The deletion of the
archived month's attendance is commented out in the source (disabled to
preserve history) and the optional GitHub sync does not touch local
data, so neither appears here. -/
def archivePreviousMonth (monthOf : Nat → Nat) (monthKey : Nat)
    (d : MTData) : MTData :=
  let totalDays := d.attendance.countP (fun e => monthOf e.1 == monthKey)
  let lunchCount := d.attendance.countP
    (fun e => monthOf e.1 == monthKey && e.2.lunch)
  let dinnerCount := d.attendance.countP
    (fun e => monthOf e.1 == monthKey && e.2.dinner)
  if 0 < totalDays then
    { d with
        summaries := setKey d.summaries monthKey
          (some ⟨lunchCount, dinnerCount, totalDays,
            toFixed1 (((lunchCount + dinnerCount : Nat) : ℚ) /
              ((totalDays * 2 : Nat) : ℚ) * 100)⟩) }
  else d

/-- Archive bookkeeping state: the messtrack_last_reset storage key plus
the document. -/
structure ArchState where
  lastReset : Option Nat
  data : MTData

/-- MessTrack.checkAndAutoReset executed during month cur: when the
stored last-reset month differs, archive the previous month (if any
attendance exists) and remember cur.  Months are linear indices, so the
previous month is cur - 1. -/
def checkAndAutoReset (monthOf : Nat → Nat) (cur : Nat) (s : ArchState) :
    ArchState :=
  if s.lastReset ≠ some cur then
    { lastReset := some cur,
      data := if s.data.attendance ≠ [] then
          archivePreviousMonth monthOf (cur - 1) s.data
        else s.data }
  else s

/-- Run checkAndAutoReset over a sequence of months. -/
def autoResetRun (monthOf : Nat → Nat) (months : List Nat) (s : ArchState) :
    ArchState :=
  months.foldl (fun t m => checkAndAutoReset monthOf m t) s

end MessTrack

theorem archivePreviousMonth_frame (monthOf : Nat → Nat) (monthKey : Nat)
    (d : MTData) :
    (MessTrack.archivePreviousMonth monthOf monthKey d).attendance =
      d.attendance ∧
    (MessTrack.archivePreviousMonth monthOf monthKey d).notes = d.notes ∧
    ∀ k, k ≠ monthKey →
      (MessTrack.archivePreviousMonth monthOf monthKey d).summaries k =
        d.summaries k := by
  simp only [MessTrack.archivePreviousMonth]
  split
  · exact ⟨rfl, rfl, fun k hk => setKey_ne _ _ _ k hk⟩
  · exact ⟨rfl, rfl, fun k _ => rfl⟩

theorem checkAndAutoReset_data_frame (monthOf : Nat → Nat) (cur : Nat)
    (s : MessTrack.ArchState) :
    (MessTrack.checkAndAutoReset monthOf cur s).data.attendance =
      s.data.attendance ∧
    (MessTrack.checkAndAutoReset monthOf cur s).data.notes = s.data.notes := by
  rw [MessTrack.checkAndAutoReset]
  split
  · simp only
    split
    · exact ⟨(archivePreviousMonth_frame monthOf (cur - 1) s.data).1,
        (archivePreviousMonth_frame monthOf (cur - 1) s.data).2.1⟩
    · exact ⟨rfl, rfl⟩
  · exact ⟨rfl, rfl⟩

theorem checkAndAutoReset_lastReset (monthOf : Nat → Nat) (cur : Nat)
    (s : MessTrack.ArchState) :
    (MessTrack.checkAndAutoReset monthOf cur s).lastReset = some cur := by
  rw [MessTrack.checkAndAutoReset]
  split
  · rfl
  · next h =>
    push_neg at h
    exact h

theorem checkAndAutoReset_summary_other (monthOf : Nat → Nat) (cur : Nat)
    (s : MessTrack.ArchState) (k : Nat) (hk : k ≠ cur - 1) :
    (MessTrack.checkAndAutoReset monthOf cur s).data.summaries k =
      s.data.summaries k := by
  rw [MessTrack.checkAndAutoReset]
  split
  · simp only
    split
    · exact (archivePreviousMonth_frame monthOf (cur - 1) s.data).2.2 k hk
    · rfl
  · rfl

/-- Once a run of checkAndAutoReset calls over non-decreasing months has
reached month cur, later calls never touch the summary stored under
cur - 1. -/
theorem autoResetRun_preserves_summary (monthOf : Nat → Nat) :
    ∀ (ms : List Nat) (s : MessTrack.ArchState) (cur : Nat) (v : MonthSummary),
      1 ≤ cur →
      ms.Sorted (· ≤ ·) →
      (∀ m ∈ ms, cur ≤ m) →
      (s.lastReset = some cur ∨ ∀ m ∈ ms, cur < m) →
      s.data.summaries (cur - 1) = some v →
      (MessTrack.autoResetRun monthOf ms s).data.summaries (cur - 1) = some v := by
  intro ms
  induction ms with
  | nil => intro s cur v _ _ _ _ hv; exact hv
  | cons m rest ih =>
    intro s cur v hcur hsort hbound hdisj hv
    obtain ⟨hle, hsort'⟩ := List.sorted_cons.mp hsort
    have hmcur : cur ≤ m := hbound m (List.mem_cons_self m rest)
    show (MessTrack.autoResetRun monthOf rest
      (MessTrack.checkAndAutoReset monthOf m s)).data.summaries (cur - 1) = some v
    by_cases htrig : s.lastReset = some m
    · -- no archive: the state is unchanged
      have hstep : MessTrack.checkAndAutoReset monthOf m s = s := by
        rw [MessTrack.checkAndAutoReset, if_neg (by simpa using htrig)]
      rw [hstep]
      refine ih s cur v hcur hsort' (fun x hx => hbound x (List.mem_cons_of_mem m hx))
        ?_ hv
      rcases hdisj with hl | hr
      · exact Or.inl hl
      · exact Or.inr (fun x hx => hr x (List.mem_cons_of_mem m hx))
    · -- archive of month m - 1; it cannot be cur - 1
      have hcltm : cur < m := by
        rcases hdisj with hl | hr
        · rcases Nat.lt_or_ge cur m with h | h
          · exact h
          · have : cur = m := by omega
            rw [← this] at htrig
            exact absurd hl htrig
        · exact hr m (List.mem_cons_self m rest)
      have hk : cur - 1 ≠ m - 1 := by omega
      have hsum := checkAndAutoReset_summary_other monthOf m s (cur - 1) hk
      refine ih (MessTrack.checkAndAutoReset monthOf m s) cur v hcur hsort'
        (fun x hx => hbound x (List.mem_cons_of_mem m hx)) ?_ (by rw [hsum]; exact hv)
      exact Or.inr (fun x hx => lt_of_lt_of_le hcltm (hle x hx))

/-- C6.  archivePreviousMonth deletes or modifies no attendance (or notes)
entry and touches no summary key other than the archived month's; the
checkAndAutoReset flow likewise leaves attendance and notes intact; and
over any run of checkAndAutoReset calls at non-decreasing later months, a
summary created for the month before cur is never overwritten or
recomputed. -/
theorem archive_frame_and_summary_immutable :
    (∀ (monthOf : Nat → Nat) (monthKey : Nat) (d : MTData),
      (MessTrack.archivePreviousMonth monthOf monthKey d).attendance =
        d.attendance ∧
      (MessTrack.archivePreviousMonth monthOf monthKey d).notes = d.notes ∧
      ∀ k, k ≠ monthKey →
        (MessTrack.archivePreviousMonth monthOf monthKey d).summaries k =
          d.summaries k) ∧
    (∀ (monthOf : Nat → Nat) (cur : Nat) (s : MessTrack.ArchState),
      (MessTrack.checkAndAutoReset monthOf cur s).data.attendance =
        s.data.attendance ∧
      (MessTrack.checkAndAutoReset monthOf cur s).data.notes =
        s.data.notes) ∧
    (∀ (monthOf : Nat → Nat) (cur : Nat) (s : MessTrack.ArchState)
        (ms : List Nat) (v : MonthSummary),
      1 ≤ cur → ms.Sorted (· ≤ ·) → (∀ m ∈ ms, cur ≤ m) →
      (MessTrack.checkAndAutoReset monthOf cur s).data.summaries (cur - 1) =
        some v →
      (MessTrack.autoResetRun monthOf ms
          (MessTrack.checkAndAutoReset monthOf cur s)).data.summaries (cur - 1) =
        some v) := by
  refine ⟨archivePreviousMonth_frame, checkAndAutoReset_data_frame, ?_⟩
  intro monthOf cur s ms v hcur hsort hbound hv
  exact autoResetRun_preserves_summary monthOf ms
    (MessTrack.checkAndAutoReset monthOf cur s) cur v hcur hsort hbound
    (Or.inl (checkAndAutoReset_lastReset monthOf cur s)) hv

/-- Witness for C6: January 2024 is archived during February and the
summary survives a later March run. -/
theorem archive_frame_and_summary_immutable_witness :
    ((1 : Nat) ≤ 202402 ∧ ([202403] : List Nat).Sorted (· ≤ ·) ∧
      (∀ m ∈ ([202403] : List Nat), 202402 ≤ m) ∧
      (MessTrack.checkAndAutoReset (fun d => d / 100) 202402
          ⟨none, ⟨[(20240115, ⟨true, false⟩)], [],
            fun _ => none⟩⟩).data.summaries (202402 - 1) =
        some ⟨1, 0, 1, toFixed1 (((1 + 0 : Nat) : ℚ) /
          ((1 * 2 : Nat) : ℚ) * 100)⟩) ∧
    (MessTrack.autoResetRun (fun d => d / 100) [202403]
        (MessTrack.checkAndAutoReset (fun d => d / 100) 202402
          ⟨none, ⟨[(20240115, ⟨true, false⟩)], [],
            fun _ => none⟩⟩)).data.summaries (202402 - 1) =
      some ⟨1, 0, 1, toFixed1 (((1 + 0 : Nat) : ℚ) /
        ((1 * 2 : Nat) : ℚ) * 100)⟩ :=
  have hv : (MessTrack.checkAndAutoReset (fun d => d / 100) 202402
      ⟨none, ⟨[(20240115, ⟨true, false⟩)], [],
        fun _ => none⟩⟩).data.summaries (202402 - 1) =
      some ⟨1, 0, 1, toFixed1 (((1 + 0 : Nat) : ℚ) /
        ((1 * 2 : Nat) : ℚ) * 100)⟩ := rfl
  ⟨⟨by decide, by decide, by decide, hv⟩,
    archive_frame_and_summary_immutable.2.2 (fun d => d / 100) 202402
      ⟨none, ⟨[(20240115, ⟨true, false⟩)], [], fun _ => none⟩⟩
      [202403] ⟨1, 0, 1, toFixed1 (((1 + 0 : Nat) : ℚ) /
        ((1 * 2 : Nat) : ℚ) * 100)⟩
      (by decide) (by decide) (by decide) hv⟩

/-- Witness for C10 at a concrete one-action history. -/
theorem loadHistory_zero_cursor_witness :
    (loadHistory [ActionData.markAttendance 1 Meal.lunch] 0).currentIndex = -1 ∧
    canUndo (loadHistory [ActionData.markAttendance 1 Meal.lunch] 0) = false ∧
    (loadHistory [ActionData.markAttendance 1 Meal.lunch] 0).history =
      [ActionData.markAttendance 1 Meal.lunch] :=
  loadHistory_zero_cursor (ActionData.markAttendance 1 Meal.lunch)
